import Mathlib

namespace MarianSpec

/-! Shallow embedding of the two source files:
  - src/src/gpu/mblas/matrix.h, first document: the TMatrix container of the
    amunmt GPU mblas library;
  - src/src/gpu/mblas/matrix.h, second document: the marian Communicator and
    DefaultCommunicator (sharded scatter reduce, all gather, swap);
  - src/unnamed/part_000: the unary operator nodes of the marian expression
    graph (backward accumulation rules, the aliasing nodes reshape and step,
    the transpose shape check).
Tensor elements are modelled as exact integers (float arithmetic idealised);
external tensor primitives (subtensor views, copyFrom, the Element and Add
kernels) are modelled from the spec, which declares them consumed interfaces:
subtensor(pos, size) is a sub range view starting at pos and clipped at the
end of the tensor, copyFrom copies elementwise, Add accumulates elementwise. -/

/-- TMatrix of the GPU mblas library: row and column counts, the capacity of
the backing array, and the backing array (none models a null data pointer).
Elements are modelled as integers. -/
structure TMatrix where
  rows : Nat
  cols : Nat
  arrSize : Nat
  data : Option (List Int)

/-- TMatrix size(): cols times rows, exactly as the source computes it. -/
def TMatrix.size (m : TMatrix) : Nat := m.cols * m.rows

/-- TMatrix.Resize(rows, cols): when the data pointer is non null, reallocate
only if the new element count exceeds the capacity, copying the first size()
elements (fresh cells of a device vector are value initialised to zero); with
a null data pointer allocate afresh; finally set the row and column counts. -/
def TMatrix.Resize (m : TMatrix) (rows cols : Nat) : TMatrix :=
  match m.data with
  | some l =>
    if rows * cols > m.arrSize then
      { rows := rows, cols := cols, arrSize := rows * cols,
        data := some (l.take m.size ++ List.replicate (rows * cols - m.size) 0) }
    else
      { rows := rows, cols := cols, arrSize := m.arrSize, data := some l }
  | none =>
      { rows := rows, cols := cols, arrSize := rows * cols,
        data := some (List.replicate (rows * cols) 0) }

/-- TMatrix.Reshape(rows, cols): sets the row and column counts only. -/
def TMatrix.Reshape (m : TMatrix) (rows cols : Nat) : TMatrix :=
  { m with rows := rows, cols := cols }

/-- Well formedness of a TMatrix as established by its constructors: the
backing array length equals the recorded capacity, the capacity holds at
least size() elements, and a null data pointer comes with zero counts. -/
def TMatrix.WF (m : TMatrix) : Prop :=
  match m.data with
  | some l => l.length = m.arrSize ∧ m.size ≤ m.arrSize
  | none => m.arrSize = 0 ∧ m.rows = 0 ∧ m.cols = 0

/-- Communicator shard size: (int)ceil(totalSize / (float)graphs_.size()),
translated to exact ceiling division on naturals. -/
def shardSize (total R : Nat) : Nat := (total + R - 1) / R

/-- Closed form of the running pos variable of Communicator.foreach at
iteration i: min(i * shardSize, total). -/
def posOf (sz total i : Nat) : Nat := min (i * sz) total

/-- Length of shard i: min(shardSize, remaining total). -/
def lenOf (sz total i : Nat) : Nat := min sz (total - posOf sz total i)

/-- The loop of Communicator.foreach: one (idx, pos) work unit per graph,
advancing pos by min(shardSize, remaining) and decrementing the remaining
count, exactly as the source loop does. -/
def foreachAux (sz : Nat) : Nat → Nat → Nat → Nat → List (Nat × Nat)
  | 0, _idx, _pos, _rem => []
  | n + 1, idx, pos, rem =>
      (idx, pos) :: foreachAux sz n (idx + 1) (pos + min sz rem) (rem - min sz rem)

/-- All (idx, pos) work units dispatched by Communicator.foreach. The threads
are joined before foreach returns, and the work units of one collective call
touch pairwise disjoint ranges, so applying them in program order is an exact
model of the fork and join. -/
def foreachPairs (R total : Nat) : List (Nat × Nat) :=
  foreachAux (shardSize total R) R 0 0 total

/-- Start position of shard i as used by every collective call. -/
def shardPos (total R i : Nat) : Nat := posOf (shardSize total R) total i

/-- Length of shard i as used by every collective call. -/
def shardLen (total R i : Nat) : Nat := lenOf (shardSize total R) total i

/-- Per replica, per element state of one flat tensor (the gradient vector or
the parameter vector) across the replica set: replica index, element index,
value. -/
abbrev GradState := Nat → Nat → Int

/-- Sum over replicas 0..R-1 of element k. -/
def sumAll (R : Nat) (g : GradState) (k : Nat) : Int :=
  (List.range R).foldl (fun a j => a + g j k) 0

/-- One work unit of DefaultCommunicator.scatterReduce: replica idx takes its
own gradient sub range curGrad = grads[idx].subtensor(pos, shardSize) and,
for every other graph in order, copies that graph gradient sub range into a
temporary and accumulates it with Element(_1 = _1 + _2, curGrad, tmp). -/
def scatterBody (R total sz idx pos : Nat) (g : GradState) : GradState :=
  fun r k =>
    if r = idx ∧ pos ≤ k ∧ k < pos + min sz (total - pos) then
      (List.range R).foldl (fun a j => if j = idx then a else a + g j k) (g idx k)
    else g r k

/-- DefaultCommunicator.scatterReduce: dispatch one scatter work unit per
shard through foreach. -/
def scatterReduce (R total : Nat) (g : GradState) : GradState :=
  (foreachPairs R total).foldl
    (fun s p => scatterBody R total (shardSize total R) p.1 p.2 s) g

/-- One work unit of DefaultCommunicator.allGather: the shard of replica idx
is copied over the matching sub range of every other graph. The flag vals of
allGather only selects which tensor the state stands for. -/
def gatherBody (R total sz idx pos : Nat) (t : GradState) : GradState :=
  fun r k =>
    if r < R ∧ r ≠ idx ∧ pos ≤ k ∧ k < pos + min sz (total - pos) then t idx k
    else t r k

/-- DefaultCommunicator.allGather: dispatch one gather work unit per shard
through foreach. -/
def allGather (R total : Nat) (t : GradState) : GradState :=
  (foreachPairs R total).foldl
    (fun s p => gatherBody R total (shardSize total R) p.1 p.2 s) t

/-- DefaultCommunicator.allReduceGrads: scatterReduce then allGather(false)
when more than one graph exists, otherwise nothing. -/
def allReduceGrads (R total : Nat) (g : GradState) : GradState :=
  if 1 < R then allGather R total (scatterReduce R total g) else g

/-- DefaultCommunicator.reduceGrads(root): routes through allReduceGrads,
ignoring the root argument. -/
def reduceGrads (R total root : Nat) (g : GradState) : GradState :=
  allReduceGrads R total g

/-- One work unit of DefaultCommunicator.swapParams, in source order: first
every graph except the last receives params[idx] over its sub range, then
params[idx] is overwritten with the sub range of the last graph, then the sub
range of the last graph is overwritten from the current sub range of graph 0.
The state is the pair (graph values, caller shard buffers); psize idx is the
size of the caller buffer params[idx]. swapVals1 is the graph state after the
first loop, which copies params[idx] over the sub range of every graph except
the last. -/
def swapVals1 (R total : Nat) (psize : Nat → Nat) (idx pos : Nat)
    (s : GradState × GradState) : GradState :=
  fun r k =>
    if r < R - 1 ∧ pos ≤ k ∧ k < pos + min (psize idx) (total - pos)
    then s.2 idx (k - pos) else s.1 r k

/-- One work unit of DefaultCommunicator.swapParams after all three source
steps: the last graph sub range is finally overwritten from graph 0 (which
already holds the params[idx] content), and params[idx] is overwritten from
the old sub range of the last graph. -/
def swapBody (R total : Nat) (psize : Nat → Nat) (idx pos : Nat)
    (s : GradState × GradState) : GradState × GradState :=
  (fun r k =>
    if r = R - 1 ∧ pos ≤ k ∧ k < pos + min (psize idx) (total - pos)
    then swapVals1 R total psize idx pos s 0 k
    else swapVals1 R total psize idx pos s r k,
   fun i j =>
    if i = idx ∧ j < min (psize idx) (total - pos)
    then swapVals1 R total psize idx pos s (R - 1) (pos + j)
    else s.2 i j)

/-- DefaultCommunicator.swapParams: ABORT_IF(graphs_.size() < 2) modelled as
none, else one swap work unit per shard through foreach. -/
def swapParams (R total : Nat) (psize : Nat → Nat)
    (s : GradState × GradState) : Option (GradState × GradState) :=
  if R < 2 then none
  else some ((foreachPairs R total).foldl
    (fun st p => swapBody R total psize p.1 p.2 st) s)

/-- Backward rule of ScalarAddNodeOp: Add(_1, child(0) grad, adj) accumulates
the upstream gradient into the child gradient buffer; the Add kernel adds its
expression elementwise into its output (consumed interface, per the spec). -/
def scalarAddBackward (grad adj : Nat → Int) : Nat → Int :=
  fun k => grad k + adj k

/-- Backward rule of TanhNodeOp for one child:
Add(_1 * (1 - _2 * _2), child(i) grad, adj, val), that is
grad += adj * (1 - val * val). -/
def tanhBackward (val grad adj : Nat → Int) : Nat → Int :=
  fun k => grad k + adj k * (1 - val k * val k)

/-- Backward rule of ScalarMultNodeOp: Add(scalar * _1, child(0) grad, adj),
that is grad += scalar * adj. -/
def scalarMultBackward (scalar : Int) (grad adj : Nat → Int) : Nat → Int :=
  fun k => grad k + scalar * adj k

/-- Backward rule of NegNodeOp: Add(-_1, child(0) grad, adj). -/
def negBackward (grad adj : Nat → Int) : Nat → Int :=
  fun k => grad k + (- adj k)

/-- TransposeNodeOp.newShape: ABORT_IF when the permutation length differs
from the child rank (modelled as Except.error carrying the message), else
output axis i receives the child extent at axes[i]. -/
def transposeNewShape (shape : List Nat) (axes : List Nat) :
    Except String (List Nat) :=
  if shape.length ≠ axes.length then
    Except.error "Shape and transpose axes have different number of dimensions"
  else
    Except.ok (axes.map fun ax => shape.getD ax 0)

/-- DefaultCommunicator constructor: ABORT_IF(mpi != nullptr, ...), modelled
as Except.error carrying the message. -/
def mkDefaultCommunicator (mpi : Option Unit) : Except String Unit :=
  if mpi.isSome then
    Except.error "DefaultCommunicator support for MPI is not yet implemented"
  else Except.ok ()

/-- Shape elements(): the product of all dimensions. -/
def elementsOf (s : List Nat) : Nat := s.foldl (fun a d => a * d) 1

/-- StepNodeOp.newShape: the selected axis is collapsed to extent one. -/
def stepNewShape (s : List Nat) (axis : Nat) : List Nat := s.set axis 1

/-- Offset, counted in elements, of the view built by StepNodeOp val and
grad: step times the element count of the view shape. -/
def stepViewOffsetElems (s : List Nat) (axis k : Nat) : Nat :=
  k * elementsOf (stepNewShape s axis)

/-- Offset in bytes of the StepNodeOp view:
step_ * shape().elements() * sizeof(float), with sizeof(float) = 4. -/
def stepViewOffsetBytes (s : List Nat) (axis k : Nat) : Nat :=
  k * elementsOf (stepNewShape s axis) * 4

/-- StepNodeOp.allocate() returns 0: no storage of its own. -/
def stepAllocate : Nat := 0

/-- ReshapeNodeOp.allocate() returns 0: no storage of its own. -/
def reshapeAllocate : Nat := 0

/-- StepNodeOp.forward() has an empty body: the parent memory is untouched. -/
def stepForward (mem : Nat → Int) : Nat → Int := mem

/-- StepNodeOp.backward() has an empty body. -/
def stepBackward (mem : Nat → Int) : Nat → Int := mem

/-- ReshapeNodeOp.forward() has an empty body. -/
def reshapeForward (mem : Nat → Int) : Nat → Int := mem

/-- ReshapeNodeOp.backward() has an empty body. -/
def reshapeBackward (mem : Nat → Int) : Nat → Int := mem

/-- ReshapeNodeOp val and grad wrap the parent memory itself: offset zero. -/
def reshapeViewOffsetElems : Nat := 0

/-- Reading element j of a view with the given element offset reads the
parent memory at off + j. -/
def viewRead (mem : Nat → Int) (off j : Nat) : Int := mem (off + j)

/-- Writing element j of a view with the given element offset writes the
parent memory at off + j and nowhere else. -/
def viewWrite (mem : Nat → Int) (off j : Nat) (v : Int) : Nat → Int :=
  fun i => if i = off + j then v else mem i

/-- Concrete replica gradient state used by the witnesses. -/
def gEx : GradState := fun r k => (r : Int) * 10 + (k : Int) + 1

/-- Concrete two replica value state for the swap counterexample: replica 0
holds 1, replica 1 holds 2 at the single parameter element. -/
def swapValsEx : GradState := fun r k =>
  if r = 0 ∧ k = 0 then 1 else if r = 1 ∧ k = 0 then 2 else 0

/-- Concrete caller shard buffers for the swap counterexample: buffer 0 holds
5. -/
def swapShardsEx : GradState := fun i j => if i = 0 ∧ j = 0 then 5 else 0

/-- Shard buffer sizes matching the shard partition of one element over two
replicas. -/
def swapPsizeEx : Nat → Nat := fun i => if i = 0 then 1 else 0

/-- Concrete parent memory for the aliasing witness. -/
def memEx : Nat → Int := fun i => (i : Int)

/-- Concrete matrix for the TMatrix witness. -/
def mEx : TMatrix := ⟨2, 2, 4, some [1, 2, 3, 4]⟩

/-! Shard partition arithmetic. -/

lemma posOf_le_total (sz total i : Nat) : posOf sz total i ≤ total := by
  unfold posOf; omega

lemma lenOf_le_rem (sz total i : Nat) :
    lenOf sz total i ≤ total - posOf sz total i := by
  unfold lenOf; omega

lemma lenOf_le_sz (sz total i : Nat) : lenOf sz total i ≤ sz := by
  unfold lenOf; omega

lemma posOf_succ (sz total i : Nat) :
    posOf sz total (i + 1) = posOf sz total i + lenOf sz total i := by
  simp only [posOf, lenOf]
  rw [Nat.succ_mul]
  generalize i * sz = a
  omega

lemma posOf_mono (sz total : Nat) {i j : Nat} (h : i ≤ j) :
    posOf sz total i ≤ posOf sz total j := by
  unfold posOf
  have : i * sz ≤ j * sz := Nat.mul_le_mul_right sz h
  omega

lemma shard_end_le_total (sz total i : Nat) :
    posOf sz total i + lenOf sz total i ≤ total := by
  rw [← posOf_succ]; exact posOf_le_total _ _ _

/-- Shards with smaller index end before shards with larger index begin. -/
lemma shards_ordered (sz total : Nat) {i j : Nat} (h : i < j) :
    posOf sz total i + lenOf sz total i ≤ posOf sz total j := by
  rw [← posOf_succ]; exact posOf_mono _ _ h

/-- The foreach loop pairs, in closed form. -/
lemma foreachAux_closed (sz total : Nat) :
    ∀ n i, foreachAux sz n i (posOf sz total i) (total - posOf sz total i)
      = (List.range' i n).map (fun j => (j, posOf sz total j)) := by
  intro n
  induction n with
  | zero => intro i; simp [foreachAux]
  | succ n ih =>
      intro i
      have hmin : min sz (total - posOf sz total i) = lenOf sz total i := rfl
      have hpos : posOf sz total i + lenOf sz total i = posOf sz total (i + 1) :=
        (posOf_succ sz total i).symm
      have hrem : total - posOf sz total i - lenOf sz total i
          = total - posOf sz total (i + 1) := by
        rw [posOf_succ]; omega
      rw [foreachAux, hmin, hpos, hrem, ih (i + 1), List.range'_succ]
      simp

lemma foreachPairs_eq (R total : Nat) :
    foreachPairs R total
      = (List.range R).map (fun i => (i, shardPos total R i)) := by
  have h0 : posOf (shardSize total R) total 0 = 0 := by simp [posOf]
  have := foreachAux_closed (shardSize total R) total R 0
  rw [h0] at this
  simpa [foreachPairs, shardPos, List.range_eq_range'] using this

lemma shardSize_pos {total R : Nat} (hR : 1 ≤ R) (ht : 1 ≤ total) :
    1 ≤ shardSize total R := by
  unfold shardSize
  rw [Nat.le_div_iff_mul_le (by omega : 0 < R)]
  omega

lemma total_le_mul_shardSize {total R : Nat} (hR : 1 ≤ R) :
    total ≤ R * shardSize total R := by
  unfold shardSize
  have h1 := Nat.div_add_mod (total + R - 1) R
  have h2 : (total + R - 1) % R < R := Nat.mod_lt _ (by omega)
  omega

/-- Membership of an element in a shard forces the shard index: the shard
containing k is k / shardSize. -/
lemma shard_mem_index {sz total k j : Nat} (hsz : 1 ≤ sz)
    (h1 : posOf sz total j ≤ k) (h2 : k < posOf sz total j + lenOf sz total j) :
    k < total ∧ k / sz = j := by
  have hkt : k < total := lt_of_lt_of_le h2 (shard_end_le_total sz total j)
  refine ⟨hkt, ?_⟩
  have hjs : j * sz < total := by
    by_contra hc
    push_neg at hc
    have hp : posOf sz total j = total := by unfold posOf; omega
    have hl : lenOf sz total j = 0 := by unfold lenOf; rw [hp]; omega
    omega
  have hpj : posOf sz total j = j * sz := by unfold posOf; omega
  have hle : j ≤ k / sz := by
    rw [Nat.le_div_iff_mul_le (by omega : 0 < sz)]; omega
  have hlt : k / sz < j + 1 := by
    rw [Nat.div_lt_iff_lt_mul (by omega : 0 < sz)]
    have hub : posOf sz total j + lenOf sz total j ≤ j * sz + sz := by
      have := lenOf_le_sz sz total j
      omega
    have : k < j * sz + sz := by omega
    calc k < j * sz + sz := this
      _ = (j + 1) * sz := by rw [Nat.succ_mul]
  omega

/-- Every element below total lies in the shard with index k / shardSize. -/
lemma shard_mem_div {sz total k : Nat} (hsz : 1 ≤ sz) (hk : k < total) :
    posOf sz total (k / sz) ≤ k ∧
      k < posOf sz total (k / sz) + lenOf sz total (k / sz) := by
  have hmul : k / sz * sz ≤ k := Nat.div_mul_le_self k sz
  have hpj : posOf sz total (k / sz) = k / sz * sz := by
    unfold posOf; omega
  constructor
  · omega
  · rw [← posOf_succ]
    have hlt : k < (k / sz + 1) * sz := by
      have h1 := Nat.div_add_mod k sz
      have h2 : k % sz < sz := Nat.mod_lt _ (by omega)
      rw [Nat.succ_mul]
      have h3 : sz * (k / sz) = k / sz * sz := Nat.mul_comm _ _
      omega
    have hdef : posOf sz total (k / sz + 1) = min ((k / sz + 1) * sz) total := rfl
    omega

/-- The shard index of any element below total is below R. -/
lemma shard_div_lt_R {total R k : Nat} (hR : 1 ≤ R) (hk : k < total) :
    k / shardSize total R < R := by
  have hsz : 1 ≤ shardSize total R := shardSize_pos hR (by omega)
  rw [Nat.div_lt_iff_lt_mul (by omega : 0 < shardSize total R)]
  exact lt_of_lt_of_le hk (total_le_mul_shardSize hR)

/-! Folding helpers for the accumulation loops. -/

lemma foldl_add_eq (f : Nat → Int) :
    ∀ (l : List Nat) (c : Int),
      l.foldl (fun a j => a + f j) c = c + (l.map f).sum := by
  intro l
  induction l with
  | nil => intro c; simp
  | cons x xs ih =>
      intro c
      simp only [List.foldl_cons, List.map_cons, List.sum_cons, ih]
      ring

lemma foldl_skip_eq (f : Nat → Int) (idx : Nat) :
    ∀ (l : List Nat) (c : Int),
      l.foldl (fun a j => if j = idx then a else a + f j) c
        = c + (l.map fun j => if j = idx then (0 : Int) else f j).sum := by
  intro l
  induction l with
  | nil => intro c; simp
  | cons x xs ih =>
      intro c
      by_cases hx : x = idx
      · simp only [List.foldl_cons, List.map_cons, List.sum_cons, if_pos hx, ih]
        ring
      · simp only [List.foldl_cons, List.map_cons, List.sum_cons, if_neg hx, ih]
        ring

lemma range_map_skip_sum (f : Nat → Int) :
    ∀ R idx : Nat, idx < R →
      ((List.range R).map fun j => if j = idx then (0 : Int) else f j).sum + f idx
        = ((List.range R).map f).sum := by
  intro R
  induction R with
  | zero => intro idx h; omega
  | succ R ih =>
      intro idx h
      rw [List.range_succ, List.map_append, List.map_append,
        List.sum_append, List.sum_append]
      by_cases hx : idx = R
      · subst hx
        have hmap : ((List.range idx).map fun j => if j = idx then (0 : Int) else f j)
            = (List.range idx).map f :=
          List.map_congr_left (fun a ha => by
            have haa : a < idx := List.mem_range.mp ha
            simp [Nat.ne_of_lt haa])
        rw [hmap]
        simp
      · have hih := ih idx (by omega)
        have hsing : (([R].map fun j => if j = idx then (0 : Int) else f j)).sum
            = ([R].map f).sum := by
          have : R ≠ idx := fun hc => hx hc.symm
          simp [this]
        rw [hsing] at *
        omega

lemma sumAll_eq_mapSum (R : Nat) (g : GradState) (k : Nat) :
    sumAll R g k = ((List.range R).map fun j => g j k).sum := by
  unfold sumAll
  rw [foldl_add_eq]
  simp

/-- The accumulation loop of one scatter work unit computes the sum over all
replicas, when the state it reads agrees with g. -/
lemma scatter_inner_fold (R idx : Nat) (hidx : idx < R) (S g : GradState)
    (k : Nat) (hagree : ∀ j, j < R → S j k = g j k) :
    (List.range R).foldl (fun a j => if j = idx then a else a + S j k) (S idx k)
      = sumAll R g k := by
  rw [foldl_skip_eq]
  have hmap : ((List.range R).map fun j => if j = idx then (0 : Int) else S j k)
      = (List.range R).map fun j => if j = idx then (0 : Int) else g j k :=
    List.map_congr_left (fun a ha => by
      by_cases hx : a = idx
      · simp [hx]
      · simp [hx, hagree a (List.mem_range.mp ha)])
  rw [hmap, hagree idx hidx, sumAll_eq_mapSum]
  have hsum := range_map_skip_sum (fun j => g j k) R idx hidx
  simp only [] at hsum
  omega

/-- State of the replica gradients after the first n scatter work units:
replicas below n hold the full sum on their own shard, everything else is
untouched. -/
lemma scatter_char (R total : Nat) (hR : 1 ≤ R) (g : GradState) :
    ∀ n, n ≤ R → ∀ r k,
      ((List.range n).foldl
        (fun s i => scatterBody R total (shardSize total R) i
          (posOf (shardSize total R) total i) s) g) r k
      = if r < n ∧ posOf (shardSize total R) total r ≤ k ∧
            k < posOf (shardSize total R) total r + lenOf (shardSize total R) total r
        then sumAll R g k
        else g r k := by
  intro n
  induction n with
  | zero => intro _ r k; simp
  | succ n ih =>
      intro hn r k
      have hnR : n < R := hn
      rw [List.range_succ, List.foldl_append, List.foldl_cons, List.foldl_nil]
      have hS := ih (by omega)
      set sz := shardSize total R with hszdef
      by_cases hcond : r = n ∧ posOf sz total n ≤ k ∧
          k < posOf sz total n + lenOf sz total n
      · obtain ⟨hr, hk1, hk2⟩ := hcond
        have hlen : min sz (total - posOf sz total n) = lenOf sz total n := rfl
        rw [scatterBody]
        simp only [hlen]
        rw [if_pos ⟨hr, hk1, hk2⟩]
        have hagree : ∀ j, j < R →
            ((List.range n).foldl
              (fun s i => scatterBody R total sz i (posOf sz total i) s) g) j k
              = g j k := by
          intro j hj
          rw [hS j k]
          by_cases hjn : j < n ∧ posOf sz total j ≤ k ∧
              k < posOf sz total j + lenOf sz total j
          · obtain ⟨hj1, hj2, hj3⟩ := hjn
            have hord := shards_ordered sz total hj1
            omega
          · exact if_neg hjn
        rw [scatter_inner_fold R n hnR _ g k hagree]
        have hgoal : r < n + 1 ∧ posOf sz total r ≤ k ∧
            k < posOf sz total r + lenOf sz total r := by
          subst hr; exact ⟨by omega, hk1, hk2⟩
        rw [if_pos hgoal]
      · rw [scatterBody]
        have hlen : min sz (total - posOf sz total n) = lenOf sz total n := rfl
        simp only [hlen]
        rw [if_neg hcond, hS r k]
        by_cases hc1 : r < n ∧ posOf sz total r ≤ k ∧
            k < posOf sz total r + lenOf sz total r
        · rw [if_pos hc1, if_pos ⟨by omega, hc1.2.1, hc1.2.2⟩]
        · rw [if_neg hc1]
          by_cases hc2 : r < n + 1 ∧ posOf sz total r ≤ k ∧
              k < posOf sz total r + lenOf sz total r
          · exfalso
            obtain ⟨hr1, hr2, hr3⟩ := hc2
            have hrn : r = n := by
              by_contra hne
              exact hc1 ⟨by omega, hr2, hr3⟩
            subst hrn
            exact hcond ⟨rfl, hr2, hr3⟩
          · rw [if_neg hc2]

/-- DefaultCommunicator.scatterReduce in closed form. -/
lemma scatterReduce_eq (R total : Nat) (hR : 1 ≤ R) (g : GradState) (r k : Nat) :
    scatterReduce R total g r k
      = if r < R ∧ shardPos total R r ≤ k ∧
            k < shardPos total R r + shardLen total R r
        then sumAll R g k else g r k := by
  unfold scatterReduce
  rw [foreachPairs_eq, List.foldl_map]
  exact scatter_char R total hR g R (le_refl R) r k

/-- State after the first n gather work units: elements of completed shards
are overwritten with the owning replica value, everything else untouched. -/
lemma gather_char (R total : Nat) (hR : 1 ≤ R) (t : GradState) :
    ∀ n, n ≤ R → ∀ r k,
      ((List.range n).foldl
        (fun s i => gatherBody R total (shardSize total R) i
          (posOf (shardSize total R) total i) s) t) r k
      = if r < R ∧ k < total ∧ k / shardSize total R < n ∧
            r ≠ k / shardSize total R
        then t (k / shardSize total R) k
        else t r k := by
  intro n
  induction n with
  | zero => intro _ r k; simp
  | succ n ih =>
      intro hn r k
      rw [List.range_succ, List.foldl_append, List.foldl_cons, List.foldl_nil]
      have hS := ih (by omega)
      set sz := shardSize total R with hszdef
      rw [gatherBody]
      have hlen : min sz (total - posOf sz total n) = lenOf sz total n := rfl
      simp only [hlen]
      by_cases hw : r < R ∧ r ≠ n ∧ posOf sz total n ≤ k ∧
          k < posOf sz total n + lenOf sz total n
      · obtain ⟨hr, hrn, hk1, hk2⟩ := hw
        rw [if_pos ⟨hr, hrn, hk1, hk2⟩, hS n k]
        have htot : 1 ≤ total := by
          have := shard_end_le_total sz total n
          omega
        have hsz1 : 1 ≤ sz := shardSize_pos hR htot
        have hmem := shard_mem_index hsz1 hk1 hk2
        rw [if_neg (fun hc => hc.2.2.2 hmem.2.symm)]
        rw [if_pos ⟨hr, hmem.1, by omega, by rw [hmem.2]; exact hrn⟩, hmem.2]
      · rw [if_neg hw, hS r k]
        by_cases hc1 : r < R ∧ k < total ∧ k / sz < n ∧ r ≠ k / sz
        · rw [if_pos hc1, if_pos ⟨hc1.1, hc1.2.1, by omega, hc1.2.2.2⟩]
        · rw [if_neg hc1]
          by_cases hc2 : r < R ∧ k < total ∧ k / sz < n + 1 ∧ r ≠ k / sz
          · exfalso
            obtain ⟨h1, h2, h3, h4⟩ := hc2
            have hdn : k / sz = n := by
              by_contra hne
              exact hc1 ⟨h1, h2, by omega, h4⟩
            have hsz1 : 1 ≤ sz := shardSize_pos hR (by omega)
            have hmem := @shard_mem_div sz total _ hsz1 h2
            rw [hdn] at hmem h4
            exact hw ⟨h1, h4, hmem.1, hmem.2⟩
          · rw [if_neg hc2]

/-- DefaultCommunicator.allGather in closed form: every replica ends up with
the value held by the replica owning the shard of each element. -/
lemma allGather_eq (R total : Nat) (hR : 1 ≤ R) (t : GradState) (r k : Nat) :
    allGather R total t r k
      = if r < R ∧ k < total then t (k / shardSize total R) k else t r k := by
  have hg : allGather R total t r k
      = if r < R ∧ k < total ∧ k / shardSize total R < R ∧
            r ≠ k / shardSize total R
        then t (k / shardSize total R) k else t r k := by
    unfold allGather
    rw [foreachPairs_eq, List.foldl_map]
    exact gather_char R total hR t R (le_refl R) r k
  rw [hg]
  by_cases h1 : r < R ∧ k < total
  · obtain ⟨hr, hk⟩ := h1
    have hd := shard_div_lt_R hR hk
    by_cases h2 : r = k / shardSize total R
    · rw [if_neg (fun hc => hc.2.2.2 h2), if_pos ⟨hr, hk⟩, h2]
    · rw [if_pos ⟨hr, hk, hd, h2⟩, if_pos ⟨hr, hk⟩]
  · rw [if_neg (fun hc => h1 ⟨hc.1, hc.2.1⟩), if_neg h1]

/-- C1: after scatterReduce, the gradient sub range of replica i covered by
shard i equals the elementwise sum over all R replicas of their gradients on
that sub range, and every other element of replica i below total is left
unchanged. -/
theorem scatterReduce_shard_sum (R total : Nat) (g : GradState)
    (hR : 1 ≤ R) (i : Nat) (hi : i < R) (k : Nat) :
    (shardPos total R i ≤ k ∧ k < shardPos total R i + shardLen total R i →
        scatterReduce R total g i k = sumAll R g k) ∧
    (k < total →
      ¬(shardPos total R i ≤ k ∧ k < shardPos total R i + shardLen total R i) →
        scatterReduce R total g i k = g i k) := by
  constructor
  · intro hmem
    rw [scatterReduce_eq R total hR g i k, if_pos ⟨hi, hmem.1, hmem.2⟩]
  · intro _hk hnm
    rw [scatterReduce_eq R total hR g i k,
      if_neg (fun hc => hnm ⟨hc.2.1, hc.2.2⟩)]

/-- C2: the shard partition used by every collective operation: foreach
dispatches pairs (i, shardPos i); shard i starts at i * shardSize (clipped at
total); the shard ranges lie inside [0, total), have length at most
shardSize = ceil(total / R), cover every element below total, and are
pairwise disjoint. -/
theorem foreach_shard_partition (total R : Nat) (hR : 1 ≤ R) :
    foreachPairs R total
        = (List.range R).map (fun i => (i, shardPos total R i)) ∧
    (∀ i, i * shardSize total R ≤ total →
        shardPos total R i = i * shardSize total R) ∧
    (∀ i, shardPos total R i + shardLen total R i ≤ total) ∧
    (∀ i, shardLen total R i ≤ shardSize total R) ∧
    (∀ k, k < total → ∃ i, i < R ∧ shardPos total R i ≤ k ∧
        k < shardPos total R i + shardLen total R i) ∧
    (∀ i j k, i < j →
        ¬(shardPos total R i ≤ k ∧ k < shardPos total R i + shardLen total R i ∧
          shardPos total R j ≤ k ∧
          k < shardPos total R j + shardLen total R j)) := by
  refine ⟨foreachPairs_eq R total, ?_, ?_, ?_, ?_, ?_⟩
  · intro i hi
    unfold shardPos posOf
    omega
  · intro i
    exact shard_end_le_total _ _ _
  · intro i
    exact lenOf_le_sz _ _ _
  · intro k hk
    have hsz : 1 ≤ shardSize total R := shardSize_pos hR (by omega)
    have hmem := @shard_mem_div (shardSize total R) total _ hsz hk
    exact ⟨k / shardSize total R, shard_div_lt_R hR hk, hmem.1, hmem.2⟩
  · intro i j k hij hc
    obtain ⟨h1, h2, h3, h4⟩ := hc
    have hord := shards_ordered (shardSize total R) total hij
    have e1 : shardPos total R i + shardLen total R i
        ≤ shardPos total R j := hord
    omega

/-- C7: allGather(true) is idempotent, and after one call shard i of every
replica equals replica i shard i before the call. -/
theorem allGather_idempotent (R total : Nat) (t : GradState) (hR : 1 ≤ R) :
    (∀ r k, allGather R total (allGather R total t) r k
        = allGather R total t r k) ∧
    (∀ i r k, i < R → r < R →
        shardPos total R i ≤ k → k < shardPos total R i + shardLen total R i →
        allGather R total t r k = t i k) := by
  constructor
  · intro r k
    rw [allGather_eq R total hR _ r k, allGather_eq R total hR t r k]
    by_cases h : r < R ∧ k < total
    · rw [if_pos h, if_pos h, allGather_eq R total hR t _ k]
      have hd := shard_div_lt_R hR h.2
      rw [if_pos ⟨hd, h.2⟩]
    · rw [if_neg h, if_neg h]
  · intro i r k hi hr h1 h2
    have htot : 1 ≤ total := by
      have := shard_end_le_total (shardSize total R) total i
      have h1p : posOf (shardSize total R) total i ≤ k := h1
      have h2p : k < posOf (shardSize total R) total i
          + lenOf (shardSize total R) total i := h2
      omega
    have hsz : 1 ≤ shardSize total R := shardSize_pos hR htot
    have hmem := shard_mem_index hsz h1 h2
    rw [allGather_eq R total hR t r k, if_pos ⟨hr, hmem.1⟩, hmem.2]

/-- C4: allReduceGrads equals scatterReduce followed by allGather(false) when
more than one replica exists and is the identity with exactly one replica;
reduceGrads ignores its root and routes through allReduceGrads; and after
allReduceGrads every replica holds the summed gradients everywhere. -/
theorem allReduce_comp_sum (R total root : Nat) (g : GradState) (hR : 1 ≤ R) :
    (1 < R → allReduceGrads R total g
        = allGather R total (scatterReduce R total g)) ∧
    (R = 1 → allReduceGrads R total g = g) ∧
    (reduceGrads R total root g = allReduceGrads R total g) ∧
    (∀ r k, r < R → k < total → allReduceGrads R total g r k = sumAll R g k) := by
  refine ⟨?_, ?_, rfl, ?_⟩
  · intro h
    unfold allReduceGrads
    rw [if_pos h]
  · intro h
    unfold allReduceGrads
    rw [if_neg (by omega)]
  · intro r k hr hk
    by_cases hR1 : 1 < R
    · unfold allReduceGrads
      rw [if_pos hR1, allGather_eq R total hR _ r k, if_pos ⟨hr, hk⟩]
      have hsz : 1 ≤ shardSize total R := shardSize_pos hR (by omega)
      have hd := shard_div_lt_R hR hk
      have hmem := @shard_mem_div (shardSize total R) total _ hsz hk
      rw [scatterReduce_eq R total hR g _ k, if_pos ⟨hd, hmem.1, hmem.2⟩]
    · have hR0 : R = 1 := by omega
      subst hR0
      unfold allReduceGrads
      rw [if_neg (by omega)]
      have hr0 : r = 0 := by omega
      subst hr0
      simp [sumAll, List.range_succ]

/-- With at least two graphs, one swap work unit leaves every graph holding
the caller buffer content on the written sub range: the last graph receives
it through graph 0, which was overwritten by the first loop before being
read. -/
lemma swapBody_fst (R total : Nat) (psize : Nat → Nat) (idx pos : Nat)
    (s : GradState × GradState) (hR : 2 ≤ R) (r k : Nat) :
    (swapBody R total psize idx pos s).1 r k
      = if r < R ∧ pos ≤ k ∧ k < pos + min (psize idx) (total - pos)
        then s.2 idx (k - pos) else s.1 r k := by
  unfold swapBody swapVals1
  simp only []
  by_cases h3 : r = R - 1 ∧ pos ≤ k ∧ k < pos + min (psize idx) (total - pos)
  · obtain ⟨hr, h1, h2⟩ := h3
    rw [if_pos ⟨hr, h1, h2⟩, if_pos ⟨by omega, h1, h2⟩,
      if_pos ⟨by omega, h1, h2⟩]
  · rw [if_neg h3]
    by_cases h1 : r < R - 1 ∧ pos ≤ k ∧ k < pos + min (psize idx) (total - pos)
    · rw [if_pos h1, if_pos ⟨by omega, h1.2.1, h1.2.2⟩]
    · rw [if_neg h1]
      by_cases h2 : r < R ∧ pos ≤ k ∧ k < pos + min (psize idx) (total - pos)
      · exfalso
        obtain ⟨hw1, hw2, hw3⟩ := h2
        by_cases hrl : r = R - 1
        · exact h3 ⟨hrl, hw2, hw3⟩
        · exact h1 ⟨by omega, hw2, hw3⟩
      · rw [if_neg h2]

/-- One swap work unit overwrites the caller buffer idx with the old sub
range of the last graph (read before the last graph is overwritten). -/
lemma swapBody_snd (R total : Nat) (psize : Nat → Nat) (idx pos : Nat)
    (s : GradState × GradState) (i j : Nat) :
    (swapBody R total psize idx pos s).2 i j
      = if i = idx ∧ j < min (psize idx) (total - pos)
        then s.1 (R - 1) (pos + j) else s.2 i j := by
  unfold swapBody swapVals1
  simp only []
  by_cases h : i = idx ∧ j < min (psize idx) (total - pos)
  · rw [if_pos h, if_pos h, if_neg (by omega)]
  · rw [if_neg h, if_neg h]

/-- State after the first n swap work units, when the caller buffers have the
shard sizes (the intended use): every graph holds the buffer content on the
shards below n, and the buffers below n hold the old last graph shards. -/
lemma swap_char (R total : Nat) (psize : Nat → Nat) (hR : 2 ≤ R)
    (hpsize : ∀ i, i < R → psize i = lenOf (shardSize total R) total i)
    (s : GradState × GradState) :
    ∀ n, n ≤ R →
      (∀ r k, ((List.range n).foldl
          (fun st i => swapBody R total psize i
            (posOf (shardSize total R) total i) st) s).1 r k
        = if r < R ∧ k < total ∧ k / shardSize total R < n
          then s.2 (k / shardSize total R)
            (k - posOf (shardSize total R) total (k / shardSize total R))
          else s.1 r k) ∧
      (∀ i j, ((List.range n).foldl
          (fun st i => swapBody R total psize i
            (posOf (shardSize total R) total i) st) s).2 i j
        = if i < n ∧ j < lenOf (shardSize total R) total i
          then s.1 (R - 1) (posOf (shardSize total R) total i + j)
          else s.2 i j) := by
  have hR1 : 1 ≤ R := by omega
  intro n
  induction n with
  | zero =>
      intro _
      constructor
      · intro r k; simp
      · intro i j; simp
  | succ n ih =>
      intro hn
      have hnR : n < R := hn
      obtain ⟨ihv, ihp⟩ := ih (by omega)
      set sz := shardSize total R with hszdef
      have hlen : min (psize n) (total - posOf sz total n) = lenOf sz total n := by
        rw [hpsize n hnR]
        have := lenOf_le_rem sz total n
        unfold lenOf
        omega
      constructor
      · intro r k
        rw [List.range_succ, List.foldl_append, List.foldl_cons, List.foldl_nil]
        rw [swapBody_fst R total psize n (posOf sz total n) _ hR r k]
        simp only [hlen]
        by_cases hw : r < R ∧ posOf sz total n ≤ k ∧
            k < posOf sz total n + lenOf sz total n
        · obtain ⟨hr, hk1, hk2⟩ := hw
          rw [if_pos ⟨hr, hk1, hk2⟩, ihp n (k - posOf sz total n),
            if_neg (by omega)]
          have htot : 1 ≤ total := by
            have := shard_end_le_total sz total n
            omega
          have hsz1 : 1 ≤ sz := shardSize_pos hR1 htot
          obtain ⟨hmv, hmd⟩ := shard_mem_index hsz1 hk1 hk2
          rw [if_pos ⟨hr, hmv, by omega⟩, hmd]
        · rw [if_neg hw, ihv r k]
          by_cases hc1 : r < R ∧ k < total ∧ k / sz < n
          · rw [if_pos hc1, if_pos ⟨hc1.1, hc1.2.1, by omega⟩]
          · rw [if_neg hc1]
            by_cases hc2 : r < R ∧ k < total ∧ k / sz < n + 1
            · exfalso
              obtain ⟨h1, h2, h3⟩ := hc2
              have hdn : k / sz = n := by
                by_contra hne
                exact hc1 ⟨h1, h2, by omega⟩
              have hsz1 : 1 ≤ sz := shardSize_pos hR1 (by omega)
              have hmem := @shard_mem_div sz total _ hsz1 h2
              rw [hdn] at hmem
              exact hw ⟨h1, hmem.1, hmem.2⟩
            · rw [if_neg hc2]
      · intro i j
        rw [List.range_succ, List.foldl_append, List.foldl_cons, List.foldl_nil]
        rw [swapBody_snd R total psize n (posOf sz total n) _ i j]
        simp only [hlen]
        by_cases hw : i = n ∧ j < lenOf sz total n
        · obtain ⟨hi, hj⟩ := hw
          rw [if_pos ⟨hi, hj⟩, ihv (R - 1) (posOf sz total n + j)]
          have hend := shard_end_le_total sz total n
          have htot : 1 ≤ total := by omega
          have hsz1 : 1 ≤ sz := shardSize_pos hR1 htot
          obtain ⟨hmv, hmd⟩ := shard_mem_index hsz1
            (by omega : posOf sz total n ≤ posOf sz total n + j)
            (by omega : posOf sz total n + j < posOf sz total n + lenOf sz total n)
          rw [if_neg
            (fun hc => (by omega : ¬((posOf sz total n + j) / sz < n)) hc.2.2)]
          rw [hi, if_pos ⟨by omega, hj⟩]
        · rw [if_neg hw, ihp i j]
          by_cases hc1 : i < n ∧ j < lenOf sz total i
          · rw [if_pos hc1, if_pos ⟨by omega, hc1.2⟩]
          · rw [if_neg hc1]
            by_cases hc2 : i < n + 1 ∧ j < lenOf sz total i
            · exfalso
              obtain ⟨h1, h2⟩ := hc2
              have hin : i = n := by
                by_contra hne
                exact hc1 ⟨by omega, h2⟩
              exact hw ⟨hin, by rw [← hin]; exact h2⟩
            · rw [if_neg hc2]

/-- C3 amended: swapParams with fewer than two replicas fails fast; with at
least two replicas and caller buffers of the shard sizes, every replica
(including the last) receives shard i from the caller buffer shards[i], the
old last replica shard i is saved into shards[i], and every other position is
untouched. The last replica receives the shards[i] content through graph 0,
which was already overwritten, not the first replica original shard. -/
theorem swapParams_rotate (R total : Nat) (psize : Nat → Nat)
    (s : GradState × GradState) (hR : 2 ≤ R)
    (hpsize : ∀ i, i < R → psize i = shardLen total R i) :
    ∃ out, swapParams R total psize s = some out ∧
      (∀ i, i < R → ∀ k, shardPos total R i ≤ k →
          k < shardPos total R i + shardLen total R i →
          ∀ r, r < R → out.1 r k = s.2 i (k - shardPos total R i)) ∧
      (∀ i, i < R → ∀ j, j < shardLen total R i →
          out.2 i j = s.1 (R - 1) (shardPos total R i + j)) ∧
      (∀ r k, ¬(r < R ∧ k < total) → out.1 r k = s.1 r k) ∧
      (∀ i j, ¬(i < R ∧ j < shardLen total R i) → out.2 i j = s.2 i j) ∧
      (∀ R0, R0 < 2 → swapParams R0 total psize s = none) := by
  have hR1 : 1 ≤ R := by omega
  obtain ⟨hv, hp⟩ := swap_char R total psize hR
    (fun i hi => hpsize i hi) s R (le_refl R)
  refine ⟨(List.range R).foldl
      (fun st i => swapBody R total psize i
        (posOf (shardSize total R) total i) st) s,
    ?_, ?_, ?_, ?_, ?_, ?_⟩
  · unfold swapParams
    rw [if_neg (by omega), foreachPairs_eq, List.foldl_map]
    rfl
  · intro i hi k hk1 hk2 r hr
    rw [hv r k]
    have htot : 1 ≤ total := by
      have hend := shard_end_le_total (shardSize total R) total i
      have e1 : posOf (shardSize total R) total i ≤ k := hk1
      have e2 : k < posOf (shardSize total R) total i
          + lenOf (shardSize total R) total i := hk2
      omega
    have hs1 : 1 ≤ shardSize total R := shardSize_pos hR1 htot
    obtain ⟨hmv, hmd⟩ := shard_mem_index hs1 hk1 hk2
    rw [if_pos ⟨hr, hmv, by rw [hmd]; exact hi⟩, hmd]
    rfl
  · intro i hi j hj
    rw [hp i j, if_pos ⟨hi, hj⟩]
    rfl
  · intro r k hnk
    rw [hv r k, if_neg (fun hc => hnk ⟨hc.1, hc.2.1⟩)]
  · intro i j hn
    rw [hp i j, if_neg (fun hc => hn ⟨hc.1, hc.2⟩)]
  · intro R0 h0
    unfold swapParams
    rw [if_pos h0]

/-- C3 counterexample: two replicas, one parameter element; replica 0 holds
1, replica 1 holds 2, the caller buffer shards[0] holds 5. After swapParams
the last replica holds 5 (the buffer content routed through the overwritten
graph 0), not the first replica original value 1, so the claim that the first
replica original shard is copied into the last replica position is false. -/
theorem swapParams_counterexample :
    ((swapParams 2 1 swapPsizeEx (swapValsEx, swapShardsEx)).getD
        (swapValsEx, swapShardsEx)).1 1 0 = 5 ∧
    swapValsEx 0 0 = 1 ∧
    ¬ ((swapParams 2 1 swapPsizeEx (swapValsEx, swapShardsEx)).getD
        (swapValsEx, swapShardsEx)).1 1 0 = swapValsEx 0 0 := by
  refine ⟨?_, ?_, ?_⟩ <;> decide

/-- C3 witness: the amended statement holds at the concrete two replica
input. -/
theorem swapParams_rotate_witness :
    2 ≤ 2 ∧ (∀ i, i < 2 → swapPsizeEx i = shardLen 1 2 i) ∧
    ∃ out, swapParams 2 1 swapPsizeEx (swapValsEx, swapShardsEx) = some out := by
  refine ⟨by decide, by decide, ?_⟩
  obtain ⟨out, h1, _⟩ := swapParams_rotate 2 1 swapPsizeEx
    (swapValsEx, swapShardsEx) (by decide) (by decide)
  exact ⟨out, h1⟩

/-- C1 witness: two replicas, three elements, element 1 of shard 0. -/
theorem scatterReduce_shard_sum_witness :
    (1 : Nat) ≤ 2 ∧ (0 : Nat) < 2 ∧
    (shardPos 3 2 0 ≤ 1 ∧ 1 < shardPos 3 2 0 + shardLen 3 2 0) ∧
    scatterReduce 2 3 gEx 0 1 = sumAll 2 gEx 1 :=
  ⟨by decide, by decide, by decide,
    (scatterReduce_shard_sum 2 3 gEx (by decide) 0 (by decide) 1).1 (by decide)⟩

/-- C2 witness: the partition of three elements over two replicas. -/
theorem foreach_shard_partition_witness :
    (1 : Nat) ≤ 2 ∧
    foreachPairs 2 3 = (List.range 2).map (fun i => (i, shardPos 3 2 i)) :=
  ⟨by decide, (foreach_shard_partition 3 2 (by decide)).1⟩

/-- C7 witness: gathering twice equals gathering once at a concrete state. -/
theorem allGather_idempotent_witness :
    (1 : Nat) ≤ 2 ∧
    allGather 2 3 (allGather 2 3 gEx) 0 1 = allGather 2 3 gEx 0 1 :=
  ⟨by decide, (allGather_idempotent 2 3 gEx (by decide)).1 0 1⟩

/-- C4 witness: reduceGrads routes through allReduceGrads at a concrete
state. -/
theorem allReduce_comp_sum_witness :
    (1 : Nat) ≤ 2 ∧ reduceGrads 2 3 5 gEx = allReduceGrads 2 3 gEx :=
  ⟨by decide, (allReduce_comp_sum 2 3 5 gEx (by decide)).2.2.1⟩

/-- C5: gradient accumulation is linear for the backward rules: each rule
only adds its contribution into the child gradient buffer, so two backward
runs with upstream gradients adj1 and adj2 compose, and from a zero buffer
sum, to one run with adj1 + adj2. -/
theorem backward_accumulation_linear
    (grad adj1 adj2 val : Nat → Int) (scalar : Int) (k : Nat) :
    scalarAddBackward (scalarAddBackward grad adj1) adj2 k
        = scalarAddBackward grad (fun i => adj1 i + adj2 i) k ∧
    tanhBackward val (tanhBackward val grad adj1) adj2 k
        = tanhBackward val grad (fun i => adj1 i + adj2 i) k ∧
    scalarMultBackward scalar (scalarMultBackward scalar grad adj1) adj2 k
        = scalarMultBackward scalar grad (fun i => adj1 i + adj2 i) k ∧
    negBackward (negBackward grad adj1) adj2 k
        = negBackward grad (fun i => adj1 i + adj2 i) k ∧
    scalarAddBackward grad adj1 k
        = grad k + scalarAddBackward (fun _ => 0) adj1 k ∧
    tanhBackward val grad adj1 k
        = grad k + tanhBackward val (fun _ => 0) adj1 k ∧
    scalarMultBackward scalar grad adj1 k
        = grad k + scalarMultBackward scalar (fun _ => 0) adj1 k ∧
    negBackward grad adj1 k = grad k + negBackward (fun _ => 0) adj1 k ∧
    scalarAddBackward (fun _ => 0) adj1 k + scalarAddBackward (fun _ => 0) adj2 k
        = scalarAddBackward (fun _ => 0) (fun i => adj1 i + adj2 i) k ∧
    tanhBackward val (fun _ => 0) adj1 k + tanhBackward val (fun _ => 0) adj2 k
        = tanhBackward val (fun _ => 0) (fun i => adj1 i + adj2 i) k := by
  unfold scalarAddBackward tanhBackward scalarMultBackward negBackward
  refine ⟨by ring, by ring, by ring, by ring, by ring,
    by ring, by ring, by ring, by ring, by ring⟩

/-- C6: the aliasing nodes allocate no storage and their forward and backward
do nothing; step on a 3 by 4 parent with axis 0 yields a 1 by 4 view whose
backing byte offset is k * 4 * sizeof(float); writing element j of the step
gradient view is visible exactly at element 4 * k + j of the parent gradient,
that is in row k only; the reshape view sits at offset zero over the parent
memory. -/
theorem aliasing_view_step (mem : Nat → Int) (k j : Nat) (v : Int)
    (r c : Nat) (hk : k < 3) (hj : j < 4) :
    stepAllocate = 0 ∧ reshapeAllocate = 0 ∧
    stepForward mem = mem ∧ stepBackward mem = mem ∧
    reshapeForward mem = mem ∧ reshapeBackward mem = mem ∧
    stepNewShape [3, 4] 0 = [1, 4] ∧
    elementsOf (stepNewShape [3, 4] 0) = 4 ∧
    stepViewOffsetBytes [3, 4] 0 k = k * 4 * 4 ∧
    stepViewOffsetElems [3, 4] 0 k = 4 * k ∧
    viewWrite mem (stepViewOffsetElems [3, 4] 0 k) j v (4 * k + j) = v ∧
    (r < 3 → c < 4 → ¬(r = k ∧ c = j) →
      viewWrite mem (stepViewOffsetElems [3, 4] 0 k) j v (4 * r + c)
        = mem (4 * r + c)) ∧
    (∀ i, viewRead mem reshapeViewOffsetElems i = mem i) ∧
    (∀ i w, viewWrite mem reshapeViewOffsetElems i w i = w) := by
  have hoff : stepViewOffsetElems [3, 4] 0 k = k * 4 := rfl
  refine ⟨rfl, rfl, rfl, rfl, rfl, rfl, rfl, rfl, rfl,
    hoff.trans (Nat.mul_comm k 4), ?_, ?_, ?_, ?_⟩
  · rw [hoff]
    unfold viewWrite
    rw [if_pos (by omega)]
  · intro hr hc hne
    have hne2 : ¬(4 * r + c = k * 4 + j) := by
      intro heq
      exact hne ⟨by omega, by omega⟩
    rw [hoff]
    unfold viewWrite
    rw [if_neg hne2]
  · intro i
    unfold viewRead reshapeViewOffsetElems
    simp
  · intro i w
    unfold viewWrite reshapeViewOffsetElems
    rw [if_pos (by omega)]

/-- C6 witness: concrete row and element indices. -/
theorem aliasing_view_step_witness :
    (1 : Nat) < 3 ∧ (2 : Nat) < 4 ∧ stepViewOffsetBytes [3, 4] 0 1 = 16 := by
  refine ⟨by decide, by decide, ?_⟩
  have h := (aliasing_view_step memEx 1 2 7 0 0 (by decide)
    (by decide)).2.2.2.2.2.2.2.2.1
  rw [h]

/-- C8: transpose construction fails fast with a descriptive abort when the
permutation length differs from the tensor rank, and otherwise yields the
shape whose axis i is the child extent at axes[i]. -/
theorem transpose_shape_check (shape axes : List Nat) :
    (shape.length ≠ axes.length →
      transposeNewShape shape axes = Except.error
        "Shape and transpose axes have different number of dimensions") ∧
    (shape.length = axes.length →
      ∃ out, transposeNewShape shape axes = Except.ok out ∧
        out.length = shape.length ∧
        ∀ i, i < axes.length →
          out.getD i 0 = shape.getD (axes.getD i 0) 0) := by
  constructor
  · intro h
    unfold transposeNewShape
    rw [if_pos h]
  · intro h
    unfold transposeNewShape
    rw [if_neg (by omega)]
    refine ⟨_, rfl, by simp [h], ?_⟩
    intro i hi
    rw [List.getD_eq_getElem?_getD, List.getElem?_map,
      List.getElem?_eq_getElem hi]
    have hg : axes.getD i 0 = axes.get ⟨i, hi⟩ := by
      rw [List.getD_eq_getElem?_getD, List.getElem?_eq_getElem hi]
      rfl
    rw [hg]
    rfl

/-- C8 witness: a rank two transpose permutation. -/
theorem transpose_shape_check_witness :
    ([2, 3] : List Nat).length = ([1, 0] : List Nat).length ∧
    ∃ out, transposeNewShape [2, 3] [1, 0] = Except.ok out := by
  refine ⟨by decide, ?_⟩
  obtain ⟨out, h1, _⟩ := (transpose_shape_check [2, 3] [1, 0]).2 (by decide)
  exact ⟨out, h1⟩

/-- C9: constructing a DefaultCommunicator succeeds exactly when the MPI
wrapper is null; a non null wrapper aborts with the not implemented
message. -/
theorem defaultCommunicator_rejects_mpi (mpi : Option Unit) :
    (mkDefaultCommunicator mpi = Except.ok () ↔ mpi = none) ∧
    (mpi ≠ none → mkDefaultCommunicator mpi = Except.error
      "DefaultCommunicator support for MPI is not yet implemented") := by
  cases mpi <;> simp [mkDefaultCommunicator]

/-- C9 witness: a present MPI wrapper is rejected. -/
theorem defaultCommunicator_rejects_mpi_witness :
    (some () : Option Unit) ≠ none ∧
    mkDefaultCommunicator (some ()) = Except.error
      "DefaultCommunicator support for MPI is not yet implemented" :=
  ⟨by decide, (defaultCommunicator_rejects_mpi (some ())).2 (by decide)⟩

/-- C10: Resize preserves the first min(old size, new size) stored elements,
reallocates only when the new element count exceeds the capacity, never
shrinks the capacity, and sets the counts; Reshape changes only the counts,
leaving the buffer and the capacity untouched. -/
theorem tmatrix_resize_reshape (m : TMatrix) (r c : Nat) (hwf : m.WF) :
    (m.Resize r c).rows = r ∧ (m.Resize r c).cols = c ∧
    (m.Resize r c).size = r * c ∧
    m.arrSize ≤ (m.Resize r c).arrSize ∧
    (∀ l, m.data = some l → r * c ≤ m.arrSize →
      (m.Resize r c).data = some l ∧ (m.Resize r c).arrSize = m.arrSize) ∧
    (∀ l l2, m.data = some l → (m.Resize r c).data = some l2 →
      ∀ i, i < min m.size (r * c) → l2.getD i 0 = l.getD i 0) ∧
    (m.Reshape r c).rows = r ∧ (m.Reshape r c).cols = c ∧
    (m.Reshape r c).data = m.data ∧ (m.Reshape r c).arrSize = m.arrSize := by
  obtain ⟨rows, cols, arrSize, data⟩ := m
  cases data with
  | none =>
      obtain ⟨h1, h2, h3⟩ : arrSize = 0 ∧ rows = 0 ∧ cols = 0 := hwf
      unfold TMatrix.Resize TMatrix.Reshape TMatrix.size
      dsimp only
      refine ⟨rfl, rfl, Nat.mul_comm c r, by omega, ?_, ?_, rfl, rfl, rfl, rfl⟩
      · intro l hl
        cases hl
      · intro l l2 hl
        cases hl
  | some l =>
      obtain ⟨hlen, hsz⟩ : l.length = arrSize ∧ cols * rows ≤ arrSize := hwf
      unfold TMatrix.Resize TMatrix.Reshape TMatrix.size
      dsimp only
      by_cases hgrow : r * c > arrSize
      · rw [if_pos hgrow]
        dsimp only
        refine ⟨rfl, rfl, Nat.mul_comm c r, by omega, ?_, ?_, rfl, rfl, rfl, rfl⟩
        · intro l0 hl0 hle
          exact absurd hle (by omega)
        · intro l0 l2 hl0 hl2 i hi
          cases hl0
          cases hl2
          rw [List.getD_eq_getElem?_getD, List.getD_eq_getElem?_getD,
            List.getElem?_append_left (by rw [List.length_take]; omega),
            List.getElem?_take_of_lt (by omega)]
      · rw [if_neg hgrow]
        dsimp only
        refine ⟨rfl, rfl, Nat.mul_comm c r, le_refl _, ?_, ?_, rfl, rfl, rfl, rfl⟩
        · intro l0 hl0 hle
          cases hl0
          exact ⟨rfl, rfl⟩
        · intro l0 l2 hl0 hl2 i hi
          cases hl0
          cases hl2
          rfl

/-- C10 witness: a 2 by 2 matrix resized to 3 by 2. -/
theorem tmatrix_resize_reshape_witness :
    mEx.WF ∧ (mEx.Resize 3 2).rows = 3 := by
  have hwf : mEx.WF := ⟨rfl, by decide⟩
  exact ⟨hwf, (tmatrix_resize_reshape mEx 3 2 hwf).1⟩

end MarianSpec
